import Mathlib

/-
  Verification development for the angular-onselect RangeService
  (src/range.service.js).

  The service processes the host browser's current text selection.  We give a
  shallow embedding of the relevant host environment (one parent element whose
  children are text nodes and highlight wrapper elements, DOM ranges with live
  boundary updates) and transliterate the service's functions: process,
  Selection, isHighlighted, snapToWord, highlight, removeHighlight, getText.

  Text data is modelled as List Char (JavaScript strings of the involved text
  nodes); element identity is modelled with numeric ids allocated from a
  counter, mirroring object identity of DOM nodes.
-/

namespace OnSelect

/-- Character data of a text node, modelling a JavaScript string. -/
abbrev Str := List Char

/-- Modelled from the spec: JavaScript String.prototype.charAt.  Out-of-range
access yields the empty string, which we model as none. -/
def charAt (t : Str) (i : Nat) : Option Char :=
  t.get? i

/-- The space character, the only word-boundary character the service uses. -/
def spaceChar : Char := ' '

/-- A highlight wrapper element: identity id, tag name, and the value of
style.background (the only style the decorators of this service touch). -/
structure HElem where
  eid : Nat
  tag : String
  background : String
  deriving Repr, DecidableEq

/-- Modelled from the spec: a node of the host document, restricted to the
children of the single parent element the selection lives in.  A node is a
text node (with identity id and character data) or an element (a highlight
wrapper) with child nodes. -/
inductive DNode where
  | txt (id : Nat) (data : Str)
  | el (e : HElem) (kids : List DNode)

mutual
/-- Modelled from the spec: the textContent of a node, the concatenation of
the character data of all descendant text nodes. -/
def nodeText : DNode → Str
  | DNode.txt _ s => s
  | DNode.el _ kids => listText kids

/-- Concatenated textContent of a list of sibling nodes. -/
def listText : List DNode → Str
  | [] => []
  | n :: ns => nodeText n ++ listText ns
end

mutual
/-- All element identity ids occurring in a node. -/
def nodeElemIds : DNode → List Nat
  | DNode.txt _ _ => []
  | DNode.el e kids => e.eid :: listElemIds kids

/-- All element identity ids occurring in a list of nodes. -/
def listElemIds : List DNode → List Nat
  | [] => []
  | n :: ns => nodeElemIds n ++ listElemIds ns
end

mutual
/-- Number of element nodes (highlight wrappers) in a node, descendants
included. -/
def nodeElCount : DNode → Nat
  | DNode.txt _ _ => 0
  | DNode.el _ kids => 1 + listElCount kids

/-- Number of element nodes in a list of nodes, descendants included. -/
def listElCount : List DNode → Nat
  | [] => 0
  | n :: ns => nodeElCount n + listElCount ns
end

/-- Modelled from the spec: the host document fragment the selection lives
in - the children of one parent element - together with a counter allocating
fresh node identities (mirroring creation of new DOM nodes). -/
structure Doc where
  children : List DNode
  nextId : Nat

/-- A reference to a range container node: either a text node (by identity
id) or the parent element itself. -/
inductive NRef where
  | ptext (id : Nat)
  | pparent
  deriving Repr, DecidableEq

/-- Modelled from the spec: a DOM Range - start container and offset, end
container and offset. -/
structure Rng where
  startC : NRef
  startO : Nat
  endC : NRef
  endO : Nat
  deriving Repr, DecidableEq

/-- The Selection value built by the service: the wrapped live range and the
reference to the currently applied highlight wrapper (the field the source
calls _highlighter; undefined is modelled as none). -/
structure Selection where
  range : Rng
  highlighter : Option HElem
  deriving Repr, DecidableEq

/-- Errors of the host DOM operations; a some value models a thrown
exception propagating to the caller. -/
inductive DomErr where
  | indexSize
  | hierarchy
  | noParent
  deriving Repr, DecidableEq

/-- The options record: the two recognized flags. -/
structure Options where
  snapToWord : Bool
  highlight : Bool
  deriving Repr, DecidableEq

/-- The Selection constructor of the source: wraps a range, with the
_highlighter field initially undefined. -/
def mkSelection (range : Rng) : Selection :=
  ⟨range, none⟩

/-- Source isHighlighted: double negation of the _highlighter field. -/
def isHighlighted (s : Selection) : Bool :=
  s.highlighter.isSome

/-- Character data of the first top-level text node with the given id, if
present.  Host ranges of this service reference text nodes that are children
of the parent element. -/
def lookupData : List DNode → Nat → Option Str
  | [], _ => none
  | DNode.txt i s :: rest, id => if i = id then some s else lookupData rest id
  | DNode.el _ _ :: rest, id => lookupData rest id

/-- Modelled from the spec: textContent of a range container - the data of
the referenced text node, or the concatenation over all children for the
parent element. -/
def textContentOf (doc : Doc) (n : NRef) : Str :=
  match n with
  | NRef.ptext id => (lookupData doc.children id).getD []
  | NRef.pparent => listText doc.children

/-- Modelled from the spec: the length property read by snapToWord.  Text
nodes expose their data length; element nodes have no length property
(undefined), modelled as none, so the comparison against it is false. -/
def nodeLengthOf (doc : Doc) (n : NRef) : Option Nat :=
  match n with
  | NRef.ptext id => (lookupData doc.children id).map List.length
  | NRef.pparent => none

/-- The backward walk of snapToWord: decrement the offset while the character
at the offset is not a space and the offset is positive. -/
def walkBack (t : Str) : Nat → Nat
  | 0 => 0
  | n + 1 => if charAt t (n + 1) = some spaceChar then n + 1 else walkBack t n

/-- Iteration kernel of the forward walk of snapToWord, with an explicit
iteration bound so that the recursion is structural: increment the offset
while the character at the offset is not a space and the offset is below the
length. -/
def walkFwdGo (t : Str) (l : Nat) : Nat → Nat → Nat
  | 0, e => e
  | fuel + 1, e =>
      if e < l ∧ charAt t e ≠ some spaceChar then walkFwdGo t l fuel (e + 1) else e

/-- The forward walk of snapToWord against a known node length.  The loop can
run at most l minus e times, so that bound is passed as the iteration
bound. -/
def walkFwdA (t : Str) (l e : Nat) : Nat :=
  walkFwdGo t l (l - e) e

/-- The forward walk of snapToWord: when the end container has no length
property the loop condition is immediately false and the offset is kept. -/
def walkFwd (t : Str) (len : Option Nat) (e : Nat) : Nat :=
  match len with
  | none => e
  | some l => walkFwdA t l e

/-- Source snapToWord: walk the start offset backward to a space or zero,
step forward one if the walk stopped at a nonzero offset different from the
original, walk the end offset forward to a space or the node length, then set
the range boundaries to the resulting offsets. -/
def snapToWord (doc : Doc) (s : Selection) : Selection :=
  let r := s.range
  let t0 := textContentOf doc r.startC
  let w := walkBack t0 r.startO
  let start := if w ≠ 0 ∧ w ≠ r.startO then w + 1 else w
  let t1 := textContentOf doc r.endC
  let e := walkFwd t1 (nodeLengthOf doc r.endC) r.endO
  { s with range := ⟨r.startC, start, r.endC, e⟩ }

/-- Modelled from the spec: live range boundary update when a node is
inserted before the child at the given index of the parent element - parent
boundary offsets greater than the index increase by one. -/
def insertShift (j : Nat) (r : Rng) : Rng :=
  ⟨r.startC, if r.startC = NRef.pparent ∧ j < r.startO then r.startO + 1 else r.startO,
   r.endC, if r.endC = NRef.pparent ∧ j < r.endO then r.endO + 1 else r.endO⟩

/-- Modelled from the spec: live range boundary update when the child at the
given index of the parent element is removed - parent boundary offsets
greater than the index decrease by one.  The removed wrapper is empty at that
point, so no boundary can sit inside it. -/
def removeShift (j : Nat) (r : Rng) : Rng :=
  ⟨r.startC, if r.startC = NRef.pparent ∧ j < r.startO then r.startO - 1 else r.startO,
   r.endC, if r.endC = NRef.pparent ∧ j < r.endO then r.endO - 1 else r.endO⟩

/-- Split the children at the first top-level text node with the given id:
returns the nodes before it, its data, and the nodes after it. -/
def txtSplit : List DNode → Nat → Option (List DNode × Str × List DNode)
  | [], _ => none
  | DNode.txt i s :: rest, id =>
      if i = id then some ([], s, rest)
      else (txtSplit rest id).map (fun p => (DNode.txt i s :: p.1, p.2.1, p.2.2))
  | DNode.el e kids :: rest, id =>
      (txtSplit rest id).map (fun p => (DNode.el e kids :: p.1, p.2.1, p.2.2))

/-- Split the children at the first top-level element node with the given
identity id: returns the nodes before it, its child nodes, and the nodes
after it. -/
def elSplit : List DNode → Nat → Option (List DNode × List DNode × List DNode)
  | [], _ => none
  | DNode.txt i s :: rest, id =>
      (elSplit rest id).map (fun p => (DNode.txt i s :: p.1, p.2.1, p.2.2))
  | DNode.el e kids :: rest, id =>
      if e.eid = id then some ([], kids, rest)
      else (elSplit rest id).map (fun p => (DNode.el e kids :: p.1, p.2.1, p.2.2))

/-- The unwrapping loop of removeHighlight: each iteration moves the first
child of the wrapper to just before the wrapper (an insertion at the
wrapper's index, with the live range update), and once the wrapper is empty
it is removed from the parent (again with the live range update).  The
wrapper sits between pre and post; its index is the length of pre. -/
def unwrapKids (pre : List DNode) (kids post : List DNode) (r : Rng) :
    List DNode × Rng :=
  match kids with
  | [] => (pre ++ post, removeShift pre.length r)
  | k :: ks => unwrapKids (pre ++ [k]) ks post (insertShift pre.length r)

/-- Modelled from the spec: Range.surroundContents for a range whose start
and end containers are the same node (the only case in which the source
calls it).  For a text node container the text is split around the selected
characters and the new element, holding a text node with the selected
characters, is inserted between the pieces; for the parent container the
selected children are moved into the new element, which is inserted at their
position.  Afterwards the range selects the new element.  Out-of-range
offsets or a container that is not in the document raise an error before any
mutation, modelling the thrown DOMException. -/
def surroundContents (doc : Doc) (r : Rng) (e : HElem) :
    Except DomErr (Doc × Rng) :=
  match r.startC with
  | NRef.ptext id =>
    match txtSplit doc.children id with
    | none => Except.error DomErr.noParent
    | some (pre, data, post) =>
      if r.startO ≤ r.endO ∧ r.endO ≤ data.length then
        let t1 := data.take r.startO
        let mid := (data.drop r.startO).take (r.endO - r.startO)
        let t2 := data.drop r.endO
        Except.ok
          (⟨pre ++ DNode.txt id t1 ::
              DNode.el e [DNode.txt doc.nextId mid] ::
              DNode.txt (doc.nextId + 1) t2 :: post,
            doc.nextId + 2⟩,
           ⟨NRef.pparent, pre.length + 1, NRef.pparent, pre.length + 2⟩)
      else Except.error DomErr.indexSize
  | NRef.pparent =>
    if r.startO ≤ r.endO ∧ r.endO ≤ doc.children.length then
      let pre := doc.children.take r.startO
      let mid := (doc.children.drop r.startO).take (r.endO - r.startO)
      let post := doc.children.drop r.endO
      Except.ok
        (⟨pre ++ DNode.el e mid :: post, doc.nextId⟩,
         ⟨NRef.pparent, r.startO, NRef.pparent, r.startO + 1⟩)
    else Except.error DomErr.indexSize

/-- Source removeHighlight: if a highlight wrapper is present, move all of
its children to just before it and remove the now-empty wrapper, clearing
the stored reference; a no-op when nothing is highlighted.  If the stored
wrapper is not in the document its parentNode is null and the host throws,
modelled by the error component, with the reference left in place. -/
def removeHighlight (doc : Doc) (s : Selection) :
    Doc × Selection × Option DomErr :=
  match s.highlighter with
  | none => (doc, s, none)
  | some h =>
    match elSplit doc.children h.eid with
    | none => (doc, s, some DomErr.noParent)
    | some (pre, kids, post) =>
      let (children, r) := unwrapKids pre kids post s.range
      (⟨children, doc.nextId⟩, ⟨r, none⟩, none)

/-- Source highlight: first remove any existing highlight (an error there
propagates); then, only when the range's start and end containers are the
identical node, create an element of the given tag, store it as the
highlighter, invoke the decorator on it, and surround the range's contents
with it.  A failure of the surround step propagates with the highlighter
reference already stored.  The decorator is modelled as a function on the
element's style.background, the only thing the decorators of this service
set. -/
def highlight (doc : Doc) (s : Selection) (tag : String)
    (decorator : String → String) : Doc × Selection × Option DomErr :=
  match (if isHighlighted s then removeHighlight doc s else (doc, s, none)) with
  | (d1, s1, some e) => (d1, s1, some e)
  | (d1, s1, none) =>
    if s1.range.startC = s1.range.endC then
      let elem : HElem := ⟨d1.nextId, tag, ""⟩
      let d2 : Doc := ⟨d1.children, d1.nextId + 1⟩
      let elem : HElem := { elem with background := decorator elem.background }
      let s2 : Selection := { s1 with highlighter := some elem }
      match surroundContents d2 s2.range elem with
      | Except.ok (d3, r3) => (d3, { s2 with range := r3 }, none)
      | Except.error e => (d2, s2, some e)
    else (d1, s1, none)

/-- Flat character offset at which the first top-level text node with the
given id starts within the concatenated text of the children. -/
def posOfText : List DNode → Nat → Option Nat
  | [], _ => none
  | DNode.txt i s :: rest, id =>
      if i = id then some 0
      else (posOfText rest id).map (fun p => s.length + p)
  | DNode.el e kids :: rest, id =>
      (posOfText rest id).map (fun p => (nodeText (DNode.el e kids)).length + p)

/-- Flat character offset of a range boundary within the concatenated text
of the children. -/
def flatB (ns : List DNode) : NRef → Nat → Nat
  | NRef.ptext id, off => (posOfText ns id).getD 0 + off
  | NRef.pparent, off => (listText (ns.take off)).length

/-- Modelled from the spec: Range.toString - the text between the two
boundary points, the concatenation of the character data of the contained
text nodes with the partial pieces at the ends. -/
def rangeToString (ns : List DNode) (r : Rng) : Str :=
  let a := flatB ns r.startC r.startO
  let b := flatB ns r.endC r.endO
  ((listText ns).drop a).take (b - a)

/-- Source getText: the toString of the wrapped range. -/
def getText (doc : Doc) (s : Selection) : Str :=
  rangeToString doc.children s.range

/-- The default decorator process installs when options.highlight is set: it
sets the element's style.background to yellow. -/
def yellowDecorator : String → String :=
  fun _ => "yellow"

/-- Source process: obtain the first range of the host selection (throwing
when there is none), build a Selection around it, apply snapToWord when the
option is set, apply highlight with a span tag and the yellow decorator when
that option is set (a thrown highlight error propagating), and return the
Selection. -/
def process (options : Options) (doc : Doc) (ranges : List Rng) :
    Doc × Except DomErr Selection :=
  match ranges with
  | [] => (doc, Except.error DomErr.indexSize)
  | range :: _ =>
    let selection := mkSelection range
    let selection := if options.snapToWord then snapToWord doc selection else selection
    if options.highlight then
      match highlight doc selection "span" yellowDecorator with
      | (d, s, none) => (d, Except.ok s)
      | (d, _, some e) => (d, Except.error e)
    else (doc, Except.ok selection)

/-- The start offset snapToWord computes: the backward walk followed by the
step-forward correction. -/
def snapStart (t : Str) (s : Nat) : Nat :=
  if walkBack t s ≠ 0 ∧ walkBack t s ≠ s then walkBack t s + 1 else walkBack t s

/-- The range snapToWord produces on a document holding a single text node
with the given data, starting from the given offsets. -/
def snapOn (t : Str) (s0 e0 : Nat) : Rng :=
  (snapToWord ⟨[DNode.txt 0 t], 1⟩
    (mkSelection ⟨NRef.ptext 0, s0, NRef.ptext 0, e0⟩)).range

/-! ### Word-boundary predicate used by the idempotence claim -/

/-- The range offsets already lie at word boundaries: the start offset is
zero or preceded by a space, and the end offset equals the end node's length
or sits on a space. -/
def atWordBoundaries (doc : Doc) (s : Selection) : Prop :=
  (s.range.startO = 0 ∨
    charAt (textContentOf doc s.range.startC) (s.range.startO - 1) = some spaceChar) ∧
  (∀ l, nodeLengthOf doc s.range.endC = some l →
    s.range.endO = l ∨
      charAt (textContentOf doc s.range.endC) s.range.endO = some spaceChar)

/-! ### Decidable equality for document nodes -/

mutual
def dnodeDecEq : (a b : DNode) → Decidable (a = b)
  | DNode.txt i s, DNode.txt j t =>
    if h : i = j ∧ s = t then isTrue (by rw [h.1, h.2])
    else isFalse (by
      intro hc
      cases hc
      exact h ⟨rfl, rfl⟩)
  | DNode.txt _ _, DNode.el _ _ => isFalse (by intro hc; cases hc)
  | DNode.el _ _, DNode.txt _ _ => isFalse (by intro hc; cases hc)
  | DNode.el e ks, DNode.el f ls =>
    if h : e = f then
      match dlistDecEq ks ls with
      | isTrue hk => isTrue (by rw [h, hk])
      | isFalse hk => isFalse (by
          intro hc
          cases hc
          exact hk rfl)
    else isFalse (by
      intro hc
      cases hc
      exact h rfl)

def dlistDecEq : (a b : List DNode) → Decidable (a = b)
  | [], [] => isTrue rfl
  | [], _ :: _ => isFalse (by intro hc; cases hc)
  | _ :: _, [] => isFalse (by intro hc; cases hc)
  | x :: xs, y :: ys =>
    match dnodeDecEq x y, dlistDecEq xs ys with
    | isTrue h1, isTrue h2 => isTrue (by rw [h1, h2])
    | isFalse h1, _ => isFalse (by
        intro hc
        cases hc
        exact h1 rfl)
    | _, isFalse h2 => isFalse (by
        intro hc
        cases hc
        exact h2 rfl)
end

instance : DecidableEq DNode := dnodeDecEq

instance : DecidableEq Doc := fun a b =>
  decidable_of_iff (a.children = b.children ∧ a.nextId = b.nextId)
    (by cases a; cases b; simp)

/-! ### Top-level node id helpers and freshness -/

/-- Identity ids of the top-level text node children. -/
def topTxtIds : List DNode → List Nat
  | [] => []
  | DNode.txt i _ :: rest => i :: topTxtIds rest
  | DNode.el _ _ :: rest => topTxtIds rest

/-- Identity ids of the top-level element children. -/
def topElIds : List DNode → List Nat
  | [] => []
  | DNode.txt _ _ :: rest => topElIds rest
  | DNode.el e _ :: rest => e.eid :: topElIds rest

/-- Every element id in the document is below the allocation counter: the
invariant that freshly created elements get ids not yet in the document. -/
def elemIdsBelow (doc : Doc) : Bool :=
  (listElemIds doc.children).all (fun i => i < doc.nextId)

/-- A same-container range is well formed in the document: its container
text node is a child of the parent with the offsets within the data (or, for
a parent-container range, within the child count), with start not after
end.  These are exactly the conditions under which the host surround
operation succeeds rather than throwing. -/
def rngSameValid (doc : Doc) (r : Rng) : Bool :=
  match r.startC with
  | NRef.ptext id =>
    match txtSplit doc.children id with
    | some x => decide (r.startO ≤ r.endO) && decide (r.endO ≤ x.2.1.length)
    | none => false
  | NRef.pparent =>
    decide (r.startO ≤ r.endO) && decide (r.endO ≤ doc.children.length)

/-! ### Lemmas about the snapToWord walks -/

lemma walkBack_le (t : Str) : ∀ s, walkBack t s ≤ s := by
  intro s
  induction s with
  | zero => simp [walkBack]
  | succ n ih =>
    simp only [walkBack]
    split
    · exact Nat.le_refl _
    · exact Nat.le_trans ih (Nat.le_succ n)

lemma walkBack_stop (t : Str) (s : Nat) :
    walkBack t s = 0 ∨ charAt t (walkBack t s) = some spaceChar := by
  induction s with
  | zero => exact Or.inl rfl
  | succ n ih =>
    simp only [walkBack]
    split
    · next h => exact Or.inr h
    · exact ih

lemma walkBack_spaceFree (t : Str) :
    ∀ s j, walkBack t s < j → j ≤ s → charAt t j ≠ some spaceChar := by
  intro s
  induction s with
  | zero => intro j h1 h2; omega
  | succ n ih =>
    intro j h1 h2
    by_cases hsp : charAt t (n + 1) = some spaceChar
    · simp only [walkBack, if_pos hsp] at h1
      omega
    · simp only [walkBack, if_neg hsp] at h1
      by_cases hj : j = n + 1
      · rw [hj]; exact hsp
      · exact ih j h1 (by omega)

lemma walkBack_of_space (t : Str) (s : Nat)
    (h : charAt t s = some spaceChar) : walkBack t s = s := by
  cases s with
  | zero => rfl
  | succ n => simp only [walkBack, if_pos h]

lemma snapStart_idem (t : Str) (s : Nat) :
    snapStart t (snapStart t s) = snapStart t s := by
  unfold snapStart
  by_cases h : walkBack t s ≠ 0 ∧ walkBack t s ≠ s
  · rw [if_pos h]
    have hsp : charAt t (walkBack t s) = some spaceChar :=
      (walkBack_stop t s).resolve_left h.1
    have hlt : walkBack t s < s :=
      Nat.lt_of_le_of_ne (walkBack_le t s) h.2
    have hns : charAt t (walkBack t s + 1) ≠ some spaceChar :=
      walkBack_spaceFree t s (walkBack t s + 1) (Nat.lt_succ_self _) hlt
    have hwb : walkBack t (walkBack t s + 1) = walkBack t s := by
      simp only [walkBack, if_neg hns]
      exact walkBack_of_space t _ hsp
    rw [hwb, if_pos ⟨h.1, by omega⟩]
  · rw [if_neg h]
    rcases Decidable.not_and_iff_or_not.mp h with h0 | hs
    · have h0 : walkBack t s = 0 := Decidable.not_not.mp h0
      rw [h0]
      simp [walkBack]
    · have hs : walkBack t s = s := Decidable.not_not.mp hs
      by_cases h0 : walkBack t s = 0
      · rw [h0]; simp [walkBack]
      · have hsp : charAt t (walkBack t s) = some spaceChar :=
          (walkBack_stop t s).resolve_left h0
        have : walkBack t (walkBack t s) = walkBack t s :=
          walkBack_of_space t _ hsp
        rw [this]
        simp

lemma walkFwdGo_of_stopped (t : Str) (l : Nat) (fuel e : Nat)
    (h : ¬(e < l ∧ charAt t e ≠ some spaceChar)) : walkFwdGo t l fuel e = e := by
  cases fuel with
  | zero => rfl
  | succ n => simp only [walkFwdGo, if_neg h]

lemma walkFwdA_expand (t : Str) (l e : Nat) :
    walkFwdA t l e =
      if e < l ∧ charAt t e ≠ some spaceChar then walkFwdA t l (e + 1) else e := by
  by_cases h : e < l ∧ charAt t e ≠ some spaceChar
  · rw [if_pos h]
    have hf : l - e = (l - (e + 1)) + 1 := by omega
    rw [walkFwdA, hf]
    simp only [walkFwdGo, if_pos h]
    rfl
  · rw [if_neg h, walkFwdA, walkFwdGo_of_stopped t l _ e h]

/-- Induction principle following the forward walk: to prove a property of
every offset it suffices to prove it where the loop stops and to propagate it
backward across a loop step. -/
lemma walkFwdA_induction (t : Str) (l : Nat) (motive : Nat → Prop)
    (step : ∀ e, (e < l ∧ charAt t e ≠ some spaceChar) → motive (e + 1) → motive e)
    (stop : ∀ e, ¬(e < l ∧ charAt t e ≠ some spaceChar) → motive e) :
    ∀ e, motive e := by
  have H : ∀ n e, l - e ≤ n → motive e := by
    intro n
    induction n with
    | zero =>
      intro e he
      exact stop e (by omega)
    | succ n ih =>
      intro e he
      by_cases hc : e < l ∧ charAt t e ≠ some spaceChar
      · exact step e hc (ih (e + 1) (by omega))
      · exact stop e hc
  intro e
  exact H (l - e) e (Nat.le_refl _)

lemma walkFwdA_stop (t : Str) (l e : Nat) :
    ¬(walkFwdA t l e < l ∧ charAt t (walkFwdA t l e) ≠ some spaceChar) := by
  induction e using walkFwdA_induction t l with
  | step e h ih => rw [walkFwdA_expand, if_pos h]; exact ih
  | stop e h => rw [walkFwdA_expand, if_neg h]; exact h

lemma walkFwdA_fix (t : Str) (l e : Nat)
    (h : ¬(e < l ∧ charAt t e ≠ some spaceChar)) : walkFwdA t l e = e := by
  rw [walkFwdA_expand, if_neg h]

lemma walkFwdA_idem (t : Str) (l e : Nat) :
    walkFwdA t l (walkFwdA t l e) = walkFwdA t l e :=
  walkFwdA_fix t l _ (walkFwdA_stop t l e)

lemma walkFwdA_ge (t : Str) (l e : Nat) : e ≤ walkFwdA t l e := by
  induction e using walkFwdA_induction t l with
  | step e h ih => rw [walkFwdA_expand, if_pos h]; omega
  | stop e h => rw [walkFwdA_expand, if_neg h]

lemma walkFwdA_le (t : Str) (l : Nat) :
    ∀ e, e ≤ l → walkFwdA t l e ≤ l := by
  intro e
  induction e using walkFwdA_induction t l with
  | step e hc ih =>
    intro _
    rw [walkFwdA_expand, if_pos hc]
    exact ih (by omega)
  | stop e hc =>
    intro h
    rw [walkFwdA_expand, if_neg hc]
    exact h

lemma walkFwdA_spaceFree (t : Str) (l e : Nat) :
    ∀ j, e ≤ j → j < walkFwdA t l e → charAt t j ≠ some spaceChar := by
  induction e using walkFwdA_induction t l with
  | step e hc ih =>
    intro j h1 h2
    rw [walkFwdA_expand, if_pos hc] at h2
    rcases Nat.eq_or_lt_of_le h1 with rfl | hj
    · exact hc.2
    · exact ih j hj h2
  | stop e hc =>
    intro j h1 h2
    rw [walkFwdA_expand, if_neg hc] at h2
    omega

lemma snapToWord_eq (doc : Doc) (s : Selection) :
    snapToWord doc s =
      { s with range :=
          ⟨s.range.startC,
           snapStart (textContentOf doc s.range.startC) s.range.startO,
           s.range.endC,
           walkFwd (textContentOf doc s.range.endC)
             (nodeLengthOf doc s.range.endC) s.range.endO⟩ } := rfl

/-- Applying snapToWord twice always gives the same range as applying it
once; the claimed idempotence on word-boundary ranges is an instance. -/
lemma snapToWord_idem (doc : Doc) (s : Selection) :
    snapToWord doc (snapToWord doc s) = snapToWord doc s := by
  simp only [snapToWord_eq]
  rw [snapStart_idem]
  cases hl : nodeLengthOf doc s.range.endC with
  | none => simp [walkFwd, hl]
  | some l => simp [walkFwd, hl, walkFwdA_idem]

lemma walkBack_eq_zero (t : Str) :
    ∀ s, (∀ j, 1 ≤ j → j ≤ s → charAt t j ≠ some spaceChar) → walkBack t s = 0 := by
  intro s
  induction s with
  | zero => intro _; rfl
  | succ n ih =>
    intro h
    simp only [walkBack, if_neg (h (n + 1) (by omega) (Nat.le_refl _))]
    exact ih (fun j h1 h2 => h j h1 (by omega))

lemma snapOn_eq (t : Str) (s0 e0 : Nat) :
    snapOn t s0 e0 =
      ⟨NRef.ptext 0, snapStart t s0, NRef.ptext 0, walkFwdA t t.length e0⟩ := by
  simp [snapOn, snapToWord_eq, mkSelection, textContentOf, nodeLengthOf,
    lookupData, walkFwd]

/-! ### Claim theorems about snapToWord -/

/-- C4: snapToWord implements the stated algorithm.  On a single text node,
the new start offset is the result of walking backward from the start offset
to the nearest space or zero (no space lies strictly between), corrected one
step forward exactly when the walk stopped at a nonzero offset different
from the original; the new end offset is the result of walking forward from
the end offset to the nearest space or the node length (no space lies
strictly between).  In particular on the text hello world with offsets 2-5
the snapped range covers offsets 0-5, the word hello. -/
theorem snapToWord_walk_correct (t : Str) (s0 e0 : Nat) (he : e0 ≤ t.length) :
    (∃ w, (w = 0 ∨ charAt t w = some spaceChar) ∧ w ≤ s0 ∧
        (∀ j, w < j → j ≤ s0 → charAt t j ≠ some spaceChar) ∧
        (snapOn t s0 e0).startO = if w ≠ 0 ∧ w ≠ s0 then w + 1 else w) ∧
    (e0 ≤ (snapOn t s0 e0).endO ∧
      ((snapOn t s0 e0).endO = t.length ∨
        charAt t ((snapOn t s0 e0).endO) = some spaceChar) ∧
      (∀ j, e0 ≤ j → j < (snapOn t s0 e0).endO → charAt t j ≠ some spaceChar)) ∧
    snapOn "hello world".toList 2 5 = ⟨NRef.ptext 0, 0, NRef.ptext 0, 5⟩ := by
  refine ⟨⟨walkBack t s0, walkBack_stop t s0, walkBack_le t s0,
      walkBack_spaceFree t s0, ?_⟩, ⟨?_, ?_, ?_⟩, by decide⟩
  · simp only [snapOn_eq]; rfl
  · simp only [snapOn_eq]; exact walkFwdA_ge t t.length e0
  · simp only [snapOn_eq]
    have hstop := walkFwdA_stop t t.length e0
    have hle := walkFwdA_le t t.length e0 he
    rcases Decidable.not_and_iff_or_not.mp hstop with h | h
    · left; omega
    · right; exact Decidable.not_not.mp h
  · simp only [snapOn_eq]
    exact walkFwdA_spaceFree t t.length e0

/-- C4 witness: the hello world scenario obtained from the theorem. -/
theorem snapToWord_walk_correct_witness :
    snapOn "hello world".toList 2 5 = ⟨NRef.ptext 0, 0, NRef.ptext 0, 5⟩ :=
  (snapToWord_walk_correct "hello world".toList 2 5 (by decide)).2.2

/-- C6: for a range already at word boundaries, snapToWord is idempotent -
applying it twice yields the same offsets as applying it once (the proof in
fact never needs the boundary hypothesis: the operation is idempotent on
every range). -/
theorem snapToWord_idempotent_on_word_boundaries (doc : Doc) (s : Selection)
    (hb : atWordBoundaries doc s) :
    snapToWord doc (snapToWord doc s) = snapToWord doc s :=
  snapToWord_idem doc s

/-- C6 witness: a range spanning the word hello, already at boundaries. -/
theorem snapToWord_idempotent_on_word_boundaries_witness :
    snapToWord ⟨[DNode.txt 0 "hello world".toList], 1⟩
        (snapToWord ⟨[DNode.txt 0 "hello world".toList], 1⟩
          (mkSelection ⟨NRef.ptext 0, 0, NRef.ptext 0, 5⟩)) =
      snapToWord ⟨[DNode.txt 0 "hello world".toList], 1⟩
        (mkSelection ⟨NRef.ptext 0, 0, NRef.ptext 0, 5⟩) :=
  snapToWord_idempotent_on_word_boundaries _ _
    ⟨Or.inl rfl, fun _l _hl => Or.inr (by decide)⟩

/-- C9: when the start node's text begins with a space and the start offset
lies strictly inside the first following word (no space at the offsets one
through the start offset), the backward walk reaches offset zero, the
step-forward correction does not apply, and the snapped start offset is zero
- the leading space is included in the snapped range. -/
theorem snapToWord_leading_space_included (doc : Doc) (s : Selection)
    (h0 : charAt (textContentOf doc s.range.startC) 0 = some spaceChar)
    (h1 : 1 ≤ s.range.startO)
    (h2 : ∀ j, 1 ≤ j → j ≤ s.range.startO →
      charAt (textContentOf doc s.range.startC) j ≠ some spaceChar) :
    (snapToWord doc s).range.startO = 0 ∧
      charAt (textContentOf doc s.range.startC) 0 = some spaceChar := by
  refine ⟨?_, h0⟩
  rw [snapToWord_eq]
  show snapStart (textContentOf doc s.range.startC) s.range.startO = 0
  unfold snapStart
  rw [walkBack_eq_zero _ _ h2]
  simp

/-- C9 witness: text with a leading space, start offset inside the first
word. -/
theorem snapToWord_leading_space_included_witness :
    (snapToWord ⟨[DNode.txt 0 " hello".toList], 1⟩
        (mkSelection ⟨NRef.ptext 0, 3, NRef.ptext 0, 4⟩)).range.startO = 0 ∧
      charAt (textContentOf ⟨[DNode.txt 0 " hello".toList], 1⟩
        (mkSelection ⟨NRef.ptext 0, 3, NRef.ptext 0, 4⟩).range.startC) 0 =
        some spaceChar :=
  snapToWord_leading_space_included _ _ (by decide) (by decide)
    (by
      intro j hj1 hj2
      have hj3 : j ≤ 3 := hj2
      interval_cases j <;> decide)

lemma listText_append (xs ys : List DNode) :
    listText (xs ++ ys) = listText xs ++ listText ys := by
  induction xs with
  | nil => simp [listText]
  | cons x xs ih => simp [listText, ih]

lemma listElemIds_append (xs ys : List DNode) :
    listElemIds (xs ++ ys) = listElemIds xs ++ listElemIds ys := by
  induction xs with
  | nil => simp [listElemIds]
  | cons x xs ih => simp [listElemIds, ih]

lemma listElCount_append (xs ys : List DNode) :
    listElCount (xs ++ ys) = listElCount xs + listElCount ys := by
  induction xs with
  | nil => simp [listElCount]
  | cons x xs ih => simp [listElCount, ih]; omega

lemma topElIds_mem_listElemIds (l : List DNode) (x : Nat) :
    x ∈ topElIds l → x ∈ listElemIds l := by
  induction l with
  | nil => intro h; exact absurd h (List.not_mem_nil x)
  | cons n rest ih =>
    cases n with
    | txt i s =>
      intro h
      simp only [topElIds] at h
      simp only [listElemIds, nodeElemIds, List.nil_append]
      exact ih h
    | el e kids =>
      intro h
      simp only [topElIds, List.mem_cons] at h
      simp only [listElemIds, nodeElemIds, List.mem_append, List.mem_cons]
      rcases h with h | h
      · exact Or.inl (Or.inl h)
      · exact Or.inr (ih h)

lemma topTxtIds_append (xs ys : List DNode) :
    topTxtIds (xs ++ ys) = topTxtIds xs ++ topTxtIds ys := by
  induction xs with
  | nil => simp [topTxtIds]
  | cons x xs ih => cases x <;> simp [topTxtIds, ih]

lemma topElIds_append (xs ys : List DNode) :
    topElIds (xs ++ ys) = topElIds xs ++ topElIds ys := by
  induction xs with
  | nil => simp [topElIds]
  | cons x xs ih => cases x <;> simp [topElIds, ih]

/-! ### Characterizations of the node splitting searches -/

lemma txtSplit_found (pre post : List DNode) (id : Nat) (T : Str)
    (hpre : id ∉ topTxtIds pre) :
    txtSplit (pre ++ DNode.txt id T :: post) id = some (pre, T, post) := by
  induction pre with
  | nil => simp [txtSplit]
  | cons x xs ih =>
    cases x with
    | txt i s =>
      have hne : ¬(i = id) := by
        intro h
        exact hpre (by simp [topTxtIds, h])
      have hx : id ∉ topTxtIds xs := by
        intro h
        exact hpre (by simp [topTxtIds, h])
      simp [txtSplit, hne, ih hx]
    | el e kids =>
      have hx : id ∉ topTxtIds xs := by
        intro h
        exact hpre (by simp [topTxtIds, h])
      simp [txtSplit, ih hx]

lemma txtSplit_eq_some (ns : List DNode) (id : Nat) :
    ∀ pre T post, txtSplit ns id = some (pre, T, post) →
      ns = pre ++ DNode.txt id T :: post ∧ id ∉ topTxtIds pre := by
  induction ns with
  | nil => intro pre T post h; simp [txtSplit] at h
  | cons x xs ih =>
    intro pre T post h
    cases x with
    | txt i s =>
      by_cases hi : i = id
      · subst hi
        simp [txtSplit] at h
        rcases h with ⟨h1, h2, h3⟩
        subst h1; subst h2; subst h3
        simp [topTxtIds]
      · simp only [txtSplit, if_neg hi, Option.map_eq_some'] at h
        rcases h with ⟨⟨p1, p2, p3⟩, hsp, heq⟩
        simp only [Prod.mk.injEq] at heq
        rcases heq with ⟨h1, h2, h3⟩
        rcases ih p1 p2 p3 hsp with ⟨hns, hmem⟩
        subst h2; subst h3
        constructor
        · rw [← h1, hns]; simp
        · rw [← h1]
          simp [topTxtIds]
          exact ⟨fun hc => hi hc.symm, hmem⟩
    | el e kids =>
      simp only [txtSplit, Option.map_eq_some'] at h
      rcases h with ⟨⟨p1, p2, p3⟩, hsp, heq⟩
      simp only [Prod.mk.injEq] at heq
      rcases heq with ⟨h1, h2, h3⟩
      rcases ih p1 p2 p3 hsp with ⟨hns, hmem⟩
      subst h2; subst h3
      constructor
      · rw [← h1, hns]; simp
      · rw [← h1]
        simpa [topTxtIds] using hmem

lemma elSplit_found (pre post kids : List DNode) (e : HElem)
    (hpre : e.eid ∉ topElIds pre) :
    elSplit (pre ++ DNode.el e kids :: post) e.eid = some (pre, kids, post) := by
  induction pre with
  | nil => simp [elSplit]
  | cons x xs ih =>
    cases x with
    | txt i s =>
      have hx : e.eid ∉ topElIds xs := by
        intro h
        exact hpre (by simp [topElIds, h])
      simp [elSplit, ih hx]
    | el f fk =>
      have hne : ¬(f.eid = e.eid) := by
        intro h
        exact hpre (by simp [topElIds, h])
      have hx : e.eid ∉ topElIds xs := by
        intro h
        exact hpre (by simp [topElIds, h])
      simp [elSplit, hne, ih hx]

/-! ### The unwrap loop and the surround operation, computed -/

lemma unwrapKids_spec :
    ∀ (kids pre post : List DNode) (r : Rng),
      r.startC = NRef.pparent → r.endC = NRef.pparent →
      r.startO ≤ pre.length → r.endO = pre.length + 1 →
      unwrapKids pre kids post r =
        (pre ++ kids ++ post,
         ⟨NRef.pparent, r.startO, NRef.pparent, pre.length + kids.length⟩) := by
  intro kids
  induction kids with
  | nil =>
    intro pre post r hs he hso heo
    obtain ⟨sc, so, ec, eo⟩ := r
    simp only at hs he hso heo
    subst hs; subst he; subst heo
    simp only [unwrapKids, removeShift]
    rw [if_neg (by simp; omega), if_pos (by simp)]
    simp
  | cons k ks ih =>
    intro pre post r hs he hso heo
    obtain ⟨sc, so, ec, eo⟩ := r
    simp only at hs he hso heo
    subst hs; subst he; subst heo
    simp only [unwrapKids, insertShift]
    rw [if_neg (by simp; omega), if_pos (by simp)]
    have := ih (pre ++ [k]) post
      ⟨NRef.pparent, so, NRef.pparent, pre.length + 1 + 1⟩
      rfl rfl (by simp; omega) (by simp)
    simp only at this
    rw [this]
    simp
    omega

lemma surround_ptext (pre post : List DNode) (id : Nat) (T : Str)
    (nid a b : Nat) (e : HElem)
    (hpre : id ∉ topTxtIds pre) (hab : a ≤ b) (hbT : b ≤ T.length) :
    surroundContents ⟨pre ++ DNode.txt id T :: post, nid⟩
        ⟨NRef.ptext id, a, NRef.ptext id, b⟩ e =
      Except.ok
        (⟨pre ++ DNode.txt id (T.take a) ::
            DNode.el e [DNode.txt nid ((T.drop a).take (b - a))] ::
            DNode.txt (nid + 1) (T.drop b) :: post,
          nid + 2⟩,
         ⟨NRef.pparent, pre.length + 1, NRef.pparent, pre.length + 2⟩) := by
  simp only [surroundContents, txtSplit_found pre post id T hpre]
  rw [if_pos ⟨hab, hbT⟩]

lemma surround_pparent (ns : List DNode) (nid a b : Nat) (e : HElem)
    (hab : a ≤ b) (hb : b ≤ ns.length) :
    surroundContents ⟨ns, nid⟩ ⟨NRef.pparent, a, NRef.pparent, b⟩ e =
      Except.ok
        (⟨ns.take a ++ DNode.el e ((ns.drop a).take (b - a)) :: ns.drop b, nid⟩,
         ⟨NRef.pparent, a, NRef.pparent, a + 1⟩) := by
  simp only [surroundContents]
  rw [if_pos ⟨hab, hb⟩]

/-! ### The highlight and removeHighlight operations, computed -/

lemma highlight_fresh_ptext (pre post : List DNode) (id : Nat) (T : Str)
    (n a b : Nat) (tag : String) (dec : String → String)
    (hpre : id ∉ topTxtIds pre) (hab : a ≤ b) (hbT : b ≤ T.length) :
    highlight ⟨pre ++ DNode.txt id T :: post, n⟩
        ⟨⟨NRef.ptext id, a, NRef.ptext id, b⟩, none⟩ tag dec =
      (⟨pre ++ DNode.txt id (T.take a) ::
          DNode.el ⟨n, tag, dec ""⟩ [DNode.txt (n + 1) ((T.drop a).take (b - a))] ::
          DNode.txt (n + 2) (T.drop b) :: post,
        n + 3⟩,
       ⟨⟨NRef.pparent, pre.length + 1, NRef.pparent, pre.length + 2⟩,
        some ⟨n, tag, dec ""⟩⟩,
       none) := by
  simp only [highlight, isHighlighted, Option.isSome_none, Bool.false_eq_true,
    if_false, if_pos rfl]
  rw [surround_ptext pre post id T (n + 1) a b _ hpre hab hbT]
  simp [Nat.add_assoc]

lemma highlight_fresh_pparent (ns : List DNode) (n a b : Nat)
    (tag : String) (dec : String → String) (hab : a ≤ b) (hb : b ≤ ns.length) :
    highlight ⟨ns, n⟩ ⟨⟨NRef.pparent, a, NRef.pparent, b⟩, none⟩ tag dec =
      (⟨ns.take a ++ DNode.el ⟨n, tag, dec ""⟩ ((ns.drop a).take (b - a)) :: ns.drop b,
        n + 1⟩,
       ⟨⟨NRef.pparent, a, NRef.pparent, a + 1⟩, some ⟨n, tag, dec ""⟩⟩,
       none) := by
  simp only [highlight, isHighlighted, Option.isSome_none, Bool.false_eq_true,
    if_false, if_pos rfl]
  rw [surround_pparent ns (n + 1) a b _ hab hb]
  simp

lemma removeHighlight_found (pre kids post : List DNode) (h : HElem)
    (n : Nat) (r : Rng)
    (hpre : h.eid ∉ topElIds pre)
    (hs : r.startC = NRef.pparent) (he : r.endC = NRef.pparent)
    (hso : r.startO ≤ pre.length) (heo : r.endO = pre.length + 1) :
    removeHighlight ⟨pre ++ DNode.el h kids :: post, n⟩ ⟨r, some h⟩ =
      (⟨pre ++ kids ++ post, n⟩,
       ⟨⟨NRef.pparent, r.startO, NRef.pparent, pre.length + kids.length⟩, none⟩,
       none) := by
  simp only [removeHighlight, elSplit_found pre post kids h hpre]
  rw [unwrapKids_spec kids pre post r hs he hso heo]

/-! ### Computing getText on the configurations that arise -/

lemma posOfText_found (pre post : List DNode) (id : Nat) (T : Str)
    (hpre : id ∉ topTxtIds pre) :
    posOfText (pre ++ DNode.txt id T :: post) id = some (listText pre).length := by
  induction pre with
  | nil => simp [posOfText, listText]
  | cons x xs ih =>
    cases x with
    | txt i s =>
      have hne : ¬(i = id) := by
        intro h
        exact hpre (by simp [topTxtIds, h])
      have hx : id ∉ topTxtIds xs := by
        intro h
        exact hpre (by simp [topTxtIds, h])
      simp [posOfText, hne, ih hx, listText, nodeText]
    | el e kids =>
      have hx : id ∉ topTxtIds xs := by
        intro h
        exact hpre (by simp [topTxtIds, h])
      simp [posOfText, ih hx, listText]

lemma getText_ptext (pre post : List DNode) (id : Nat) (T : Str)
    (n a b : Nat) (hl : Option HElem)
    (hpre : id ∉ topTxtIds pre) (hab : a ≤ b) (hbT : b ≤ T.length) :
    getText ⟨pre ++ DNode.txt id T :: post, n⟩
        ⟨⟨NRef.ptext id, a, NRef.ptext id, b⟩, hl⟩ =
      (T.drop a).take (b - a) := by
  simp only [getText, rangeToString, flatB, posOfText_found pre post id T hpre,
    Option.getD_some]
  rw [listText_append]
  simp only [listText, nodeText]
  rw [@List.drop_append _ (listText pre) (T ++ listText post) a]
  rw [List.drop_append_of_le_length (by omega)]
  have hd : b - a ≤ (T.drop a).length := by
    simp [List.length_drop]
    omega
  rw [show (listText pre).length + b - ((listText pre).length + a) = b - a by omega]
  rw [List.take_append_of_le_length hd]

/-- Decomposition of a node list into the part before a parent-level range,
the contained slice, and the part after. -/
lemma take_slice_drop {α : Type} (ns : List α) (a b : Nat) (hab : a ≤ b) :
    ns = ns.take a ++ ((ns.drop a).take (b - a) ++ ns.drop b) := by
  have h1 : (ns.drop a).drop (b - a) = ns.drop b := by
    rw [List.drop_drop]
    congr 1
    omega
  rw [← h1, List.take_append_drop, List.take_append_drop]

lemma getText_pparent (ns : List DNode) (n a b : Nat) (hl : Option HElem)
    (hab : a ≤ b) :
    getText ⟨ns, n⟩ ⟨⟨NRef.pparent, a, NRef.pparent, b⟩, hl⟩ =
      listText ((ns.drop a).take (b - a)) := by
  simp only [getText, rangeToString, flatB]
  have hb' : listText (ns.take b) =
      listText (ns.take a) ++ listText ((ns.drop a).take (b - a)) := by
    rw [← listText_append, ← List.take_add]
    congr 2
    omega
  have hns : listText ns =
      listText (ns.take a) ++
        (listText ((ns.drop a).take (b - a)) ++ listText (ns.drop b)) := by
    conv_lhs => rw [take_slice_drop ns a b hab]
    rw [listText_append, listText_append]
  rw [hns, hb', List.length_append]
  rw [show (listText (ns.take a)).length +
        (listText ((ns.drop a).take (b - a))).length -
        (listText (ns.take a)).length =
      (listText ((ns.drop a).take (b - a))).length by omega]
  rw [List.drop_left]
  rw [List.take_append_of_le_length (Nat.le_refl _)]
  simp

/-! ### Validity of a same-container range and the round trip master lemma -/

lemma elemIdsBelow_spec (doc : Doc) (h : elemIdsBelow doc = true) :
    ∀ i ∈ listElemIds doc.children, i < doc.nextId := by
  intro i hi
  have := List.all_eq_true.mp h i hi
  simpa using this

lemma fresh_not_in_topElIds (ns sub : List DNode) (n : Nat)
    (hall : ∀ i ∈ listElemIds ns, i < n)
    (hsub : ∀ i, i ∈ listElemIds sub → i ∈ listElemIds ns) :
    n ∉ topElIds sub := fun hmem =>
  absurd (hall n (hsub n (topElIds_mem_listElemIds sub n hmem)))
    (Nat.lt_irrefl n)

/-- After a successful highlight of a fresh same-container Selection, the
highlighter holds the decorated fresh element, removing the highlight
unwraps it, the text of the range is restored, and the wrapper counts of the
intermediate and final documents are as expected. -/
lemma roundTrip_states (doc : Doc) (r : Rng) (tag : String)
    (dec : String → String)
    (hsame : r.startC = r.endC) (hv : rngSameValid doc r = true)
    (hid : elemIdsBelow doc = true) :
    ∃ (d1 : Doc) (r1 : Rng) (d2 : Doc) (a2 b2 : Nat),
      highlight doc ⟨r, none⟩ tag dec =
        (d1, ⟨r1, some ⟨doc.nextId, tag, dec ""⟩⟩, none) ∧
      removeHighlight d1 ⟨r1, some ⟨doc.nextId, tag, dec ""⟩⟩ =
        (d2, ⟨⟨NRef.pparent, a2, NRef.pparent, b2⟩, none⟩, none) ∧
      a2 ≤ b2 ∧ b2 ≤ d2.children.length ∧
      getText d2 ⟨⟨NRef.pparent, a2, NRef.pparent, b2⟩, none⟩ =
        getText doc ⟨r, none⟩ ∧
      listElCount d1.children = listElCount doc.children + 1 ∧
      listElCount d2.children = listElCount doc.children ∧
      d2.nextId = d1.nextId := by
  obtain ⟨ns, n⟩ := doc
  obtain ⟨sc, a, ec, b⟩ := r
  dsimp only at hsame hv ⊢
  subst hsame
  have hall : ∀ i ∈ listElemIds ns, i < n := elemIdsBelow_spec ⟨ns, n⟩ hid
  cases sc with
  | ptext id =>
    simp only [rngSameValid] at hv
    cases htx : txtSplit ns id with
    | none => rw [htx] at hv; simp at hv
    | some x =>
      obtain ⟨pre, T, post⟩ := x
      rw [htx] at hv
      simp only [Bool.and_eq_true, decide_eq_true_eq] at hv
      obtain ⟨hab, hbT⟩ := hv
      obtain ⟨hns, hpre⟩ := txtSplit_eq_some ns id pre T post htx
      subst hns
      have hfr : n ∉ topElIds pre :=
        fresh_not_in_topElIds _ pre n hall
          (fun i hi => by rw [listElemIds_append]; exact List.mem_append_left _ hi)
      refine ⟨⟨pre ++ DNode.txt id (T.take a) ::
            DNode.el ⟨n, tag, dec ""⟩
              [DNode.txt (n + 1) ((T.drop a).take (b - a))] ::
            DNode.txt (n + 2) (T.drop b) :: post, n + 3⟩,
          ⟨NRef.pparent, pre.length + 1, NRef.pparent, pre.length + 2⟩,
          ⟨(pre ++ [DNode.txt id (T.take a)]) ++
            [DNode.txt (n + 1) ((T.drop a).take (b - a))] ++
            (DNode.txt (n + 2) (T.drop b) :: post), n + 3⟩,
          pre.length + 1,
          (pre ++ [DNode.txt id (T.take a)]).length +
            [DNode.txt (n + 1) ((T.drop a).take (b - a))].length,
          highlight_fresh_ptext pre post id T n a b tag dec hpre hab hbT,
          ?_, ?_, ?_, ?_, ?_, ?_, ?_⟩
      · rw [show (⟨pre ++ DNode.txt id (T.take a) ::
            DNode.el ⟨n, tag, dec ""⟩
              [DNode.txt (n + 1) ((T.drop a).take (b - a))] ::
            DNode.txt (n + 2) (T.drop b) :: post, n + 3⟩ : Doc) =
          ⟨(pre ++ [DNode.txt id (T.take a)]) ++
            DNode.el ⟨n, tag, dec ""⟩
              [DNode.txt (n + 1) ((T.drop a).take (b - a))] ::
            (DNode.txt (n + 2) (T.drop b) :: post), n + 3⟩ by simp]
        exact removeHighlight_found (pre ++ [DNode.txt id (T.take a)])
          [DNode.txt (n + 1) ((T.drop a).take (b - a))]
          (DNode.txt (n + 2) (T.drop b) :: post)
          ⟨n, tag, dec ""⟩ (n + 3) _
          (by rw [topElIds_append]; simpa [topElIds] using hfr)
          rfl rfl (by simp) (by simp)
      · simp
      · simp [List.length_append]
        omega
      · rw [getText_ptext pre post id T n a b none hpre hab hbT]
        rw [show (pre ++ [DNode.txt id (T.take a)]) ++
              [DNode.txt (n + 1) ((T.drop a).take (b - a))] ++
              (DNode.txt (n + 2) (T.drop b) :: post) =
            (pre ++ [DNode.txt id (T.take a)]) ++
              ([DNode.txt (n + 1) ((T.drop a).take (b - a))] ++
               (DNode.txt (n + 2) (T.drop b) :: post)) by simp]
        rw [getText_pparent _ (n + 3) _ _ none (by simp)]
        rw [List.drop_left'
          (show (pre ++ [DNode.txt id (T.take a)]).length = pre.length + 1 by simp)]
        rw [show (pre ++ [DNode.txt id (T.take a)]).length +
              [DNode.txt (n + 1) ((T.drop a).take (b - a))].length -
              (pre.length + 1) = 1 by simp]
        simp [listText, nodeText]
      · simp [listElCount_append, listElCount, nodeElCount]
        omega
      · simp [listElCount_append, listElCount, nodeElCount]
      · rfl
  | pparent =>
    simp only [rngSameValid, Bool.and_eq_true, decide_eq_true_eq] at hv
    obtain ⟨hab, hb⟩ := hv
    have hlen : (ns.take a).length = a := by
      simp [List.length_take]
      omega
    have hfr : n ∉ topElIds (ns.take a) :=
      fresh_not_in_topElIds ns (ns.take a) n hall
        (fun i hi => by
          have h2 : i ∈ listElemIds (ns.take a ++ ns.drop a) := by
            rw [listElemIds_append]
            exact List.mem_append_left _ hi
          rwa [List.take_append_drop] at h2)
    have hcount : listElCount ns =
        listElCount (ns.take a) + listElCount ((ns.drop a).take (b - a)) +
          listElCount (ns.drop b) := by
      conv_lhs => rw [take_slice_drop ns a b hab]
      rw [listElCount_append, listElCount_append]
      omega
    refine ⟨⟨ns.take a ++ DNode.el ⟨n, tag, dec ""⟩
            ((ns.drop a).take (b - a)) :: ns.drop b, n + 1⟩,
        ⟨NRef.pparent, a, NRef.pparent, a + 1⟩,
        ⟨ns.take a ++ ((ns.drop a).take (b - a)) ++ ns.drop b, n + 1⟩,
        a,
        (ns.take a).length + ((ns.drop a).take (b - a)).length,
        highlight_fresh_pparent ns n a b tag dec hab hb,
        ?_, ?_, ?_, ?_, ?_, ?_, ?_⟩
    · exact removeHighlight_found (ns.take a) ((ns.drop a).take (b - a))
        (ns.drop b) ⟨n, tag, dec ""⟩ (n + 1) _ hfr rfl rfl
        (by simp [hlen]) (by simp [hlen])
    · simp [hlen]
    · simp [List.length_append, List.length_take, List.length_drop]
    · rw [getText_pparent ns n a b none hab]
      rw [show (ns.take a) ++ ((ns.drop a).take (b - a)) ++ ns.drop b =
          (ns.take a) ++ (((ns.drop a).take (b - a)) ++ ns.drop b) by simp]
      rw [getText_pparent _ (n + 1) _ _ none (by simp [hlen])]
      rw [show (ns.take a).length + ((ns.drop a).take (b - a)).length - a =
          ((ns.drop a).take (b - a)).length by omega]
      rw [List.drop_left' hlen]
      rw [List.take_left' rfl]
    · simp [listElCount_append, listElCount, nodeElCount]
      omega
    · simp [listElCount_append, listElCount, nodeElCount]
      omega
    · rfl

/-- Second highlight on an already highlighted Selection: the existing
wrapper is removed first and the (parent-level) range is surrounded again
with a fresh element. -/
lemma highlight_on_highlighted (d1 d2 : Doc) (r1 : Rng) (elem : HElem)
    (a2 b2 : Nat) (tag2 : String) (dec2 : String → String)
    (hrm : removeHighlight d1 ⟨r1, some elem⟩ =
      (d2, ⟨⟨NRef.pparent, a2, NRef.pparent, b2⟩, none⟩, none))
    (hab : a2 ≤ b2) (hb : b2 ≤ d2.children.length) :
    highlight d1 ⟨r1, some elem⟩ tag2 dec2 =
      (⟨d2.children.take a2 ++
          DNode.el ⟨d2.nextId, tag2, dec2 ""⟩
            ((d2.children.drop a2).take (b2 - a2)) :: d2.children.drop b2,
        d2.nextId + 1⟩,
       ⟨⟨NRef.pparent, a2, NRef.pparent, a2 + 1⟩,
        some ⟨d2.nextId, tag2, dec2 ""⟩⟩,
       none) := by
  simp only [highlight, isHighlighted, Option.isSome_some, if_true]
  rw [hrm]
  dsimp only
  rw [if_pos rfl]
  rw [surround_pparent d2.children (d2.nextId + 1) a2 b2 _ hab hb]

/-! ### Claim theorems about highlighting -/

/-- C2: for any Selection whose range has identical start and end
containers (and is well formed in the document), highlight followed by
removeHighlight restores the value of getText to exactly the string it
returned before the highlight call. -/
theorem highlight_removeHighlight_getText_roundtrip (doc : Doc) (r : Rng)
    (tag : String) (dec : String → String)
    (hsame : r.startC = r.endC) (hv : rngSameValid doc r = true)
    (hid : elemIdsBelow doc = true) :
    getText
        (removeHighlight (highlight doc ⟨r, none⟩ tag dec).1
          (highlight doc ⟨r, none⟩ tag dec).2.1).1
        (removeHighlight (highlight doc ⟨r, none⟩ tag dec).1
          (highlight doc ⟨r, none⟩ tag dec).2.1).2.1 =
      getText doc ⟨r, none⟩ := by
  obtain ⟨d1, r1, d2, a2, b2, e1, e2, _, _, hg, _, _, _⟩ :=
    roundTrip_states doc r tag dec hsame hv hid
  rw [e1]
  dsimp only
  rw [e2]
  exact hg

/-- C2 witness: the word world inside hello world. -/
theorem highlight_removeHighlight_getText_roundtrip_witness :
    getText
        (removeHighlight
          (highlight ⟨[DNode.txt 0 "hello world".toList], 1⟩
            ⟨⟨NRef.ptext 0, 6, NRef.ptext 0, 11⟩, none⟩ "span" yellowDecorator).1
          (highlight ⟨[DNode.txt 0 "hello world".toList], 1⟩
            ⟨⟨NRef.ptext 0, 6, NRef.ptext 0, 11⟩, none⟩ "span" yellowDecorator).2.1).1
        (removeHighlight
          (highlight ⟨[DNode.txt 0 "hello world".toList], 1⟩
            ⟨⟨NRef.ptext 0, 6, NRef.ptext 0, 11⟩, none⟩ "span" yellowDecorator).1
          (highlight ⟨[DNode.txt 0 "hello world".toList], 1⟩
            ⟨⟨NRef.ptext 0, 6, NRef.ptext 0, 11⟩, none⟩ "span" yellowDecorator).2.1).2.1 =
      getText ⟨[DNode.txt 0 "hello world".toList], 1⟩
        ⟨⟨NRef.ptext 0, 6, NRef.ptext 0, 11⟩, none⟩ :=
  highlight_removeHighlight_getText_roundtrip _ _ "span" yellowDecorator rfl
    (by decide) (by decide)

/-- C3: when the range's start and end containers are distinct nodes,
highlight on an unhighlighted Selection is a silent no-op: the document and
the Selection are untouched, no error is raised, and isHighlighted stays
false. -/
theorem highlight_cross_node_noop (doc : Doc) (s : Selection) (tag : String)
    (dec : String → String)
    (hdiff : s.range.startC ≠ s.range.endC) (hfresh : s.highlighter = none) :
    highlight doc s tag dec = (doc, s, none) ∧ isHighlighted s = false := by
  constructor
  · simp only [highlight, isHighlighted, hfresh, Option.isSome_none,
      Bool.false_eq_true, if_false]
    rw [if_neg hdiff]
  · simp [isHighlighted, hfresh]

/-- C3 witness: a range spanning two distinct text nodes. -/
theorem highlight_cross_node_noop_witness :
    highlight ⟨[DNode.txt 0 "ab".toList, DNode.txt 1 "cd".toList], 2⟩
        (mkSelection ⟨NRef.ptext 0, 0, NRef.ptext 1, 1⟩) "span" yellowDecorator =
      (⟨[DNode.txt 0 "ab".toList, DNode.txt 1 "cd".toList], 2⟩,
       mkSelection ⟨NRef.ptext 0, 0, NRef.ptext 1, 1⟩, none) ∧
    isHighlighted (mkSelection ⟨NRef.ptext 0, 0, NRef.ptext 1, 1⟩) = false :=
  highlight_cross_node_noop _ _ "span" yellowDecorator (by decide) rfl

/-- C7 counterexample: a freshly constructed Selection over a range spanning
two distinct text nodes reports isHighlighted false even immediately after a
highlight call, so the unconditional lifecycle claim fails. -/
theorem isHighlighted_lifecycle_counterexample :
    isHighlighted
        (highlight ⟨[DNode.txt 0 "ab".toList, DNode.txt 1 "cd".toList], 2⟩
          (mkSelection ⟨NRef.ptext 0, 0, NRef.ptext 1, 1⟩) "em"
          yellowDecorator).2.1 = false ∧
    (mkSelection ⟨NRef.ptext 0, 0, NRef.ptext 1, 1⟩).highlighter = none := by
  constructor
  · decide
  · rfl

/-- C7 amended: for a freshly constructed Selection whose range has
identical start and end containers and is well formed in the document,
isHighlighted is false before highlight, true immediately after highlight,
and false immediately after a subsequent removeHighlight. -/
theorem isHighlighted_lifecycle (doc : Doc) (r : Rng) (tag : String)
    (dec : String → String)
    (hsame : r.startC = r.endC) (hv : rngSameValid doc r = true)
    (hid : elemIdsBelow doc = true) :
    isHighlighted (mkSelection r) = false ∧
    isHighlighted (highlight doc (mkSelection r) tag dec).2.1 = true ∧
    isHighlighted
        (removeHighlight (highlight doc (mkSelection r) tag dec).1
          (highlight doc (mkSelection r) tag dec).2.1).2.1 = false := by
  obtain ⟨d1, r1, d2, a2, b2, e1, e2, _, _, _, _, _, _⟩ :=
    roundTrip_states doc r tag dec hsame hv hid
  simp only [mkSelection]
  refine ⟨rfl, ?_, ?_⟩
  · rw [e1]
    rfl
  · rw [e1]
    dsimp only
    rw [e2]
    rfl

/-- C7 witness: the lifecycle on the word world inside hello world. -/
theorem isHighlighted_lifecycle_witness :
    isHighlighted (mkSelection ⟨NRef.ptext 0, 6, NRef.ptext 0, 11⟩) = false ∧
    isHighlighted
        (highlight ⟨[DNode.txt 0 "hello world".toList], 1⟩
          (mkSelection ⟨NRef.ptext 0, 6, NRef.ptext 0, 11⟩) "span"
          yellowDecorator).2.1 = true ∧
    isHighlighted
        (removeHighlight
          (highlight ⟨[DNode.txt 0 "hello world".toList], 1⟩
            (mkSelection ⟨NRef.ptext 0, 6, NRef.ptext 0, 11⟩) "span"
            yellowDecorator).1
          (highlight ⟨[DNode.txt 0 "hello world".toList], 1⟩
            (mkSelection ⟨NRef.ptext 0, 6, NRef.ptext 0, 11⟩) "span"
            yellowDecorator).2.1).2.1 = false :=
  isHighlighted_lifecycle _ _ "span" yellowDecorator rfl (by decide) (by decide)

/-- C5: highlighting twice in succession without an intervening remove
leaves the Selection highlighted and exactly one wrapper element in the
document - the first wrapper is removed before the second is applied, and no
nesting occurs. -/
theorem highlight_twice_single_wrapper (doc : Doc) (r : Rng)
    (tag1 tag2 : String) (dec1 dec2 : String → String)
    (hsame : r.startC = r.endC) (hv : rngSameValid doc r = true)
    (hid : elemIdsBelow doc = true) (hc : listElCount doc.children = 0) :
    isHighlighted (highlight doc (mkSelection r) tag1 dec1).2.1 = true ∧
    isHighlighted
        (highlight (highlight doc (mkSelection r) tag1 dec1).1
          (highlight doc (mkSelection r) tag1 dec1).2.1 tag2 dec2).2.1 = true ∧
    listElCount
        (highlight (highlight doc (mkSelection r) tag1 dec1).1
          (highlight doc (mkSelection r) tag1 dec1).2.1 tag2 dec2).1.children
      = 1 := by
  obtain ⟨d1, r1, d2, a2, b2, e1, e2, hab, hb, _, _hc1, hc2, _⟩ :=
    roundTrip_states doc r tag1 dec1 hsame hv hid
  have e3 := highlight_on_highlighted d1 d2 r1 ⟨doc.nextId, tag1, dec1 ""⟩
    a2 b2 tag2 dec2 e2 hab hb
  have hparts : listElCount (d2.children.take a2) = 0 ∧
      listElCount ((d2.children.drop a2).take (b2 - a2)) = 0 ∧
      listElCount (d2.children.drop b2) = 0 := by
    have hdec : listElCount d2.children =
        listElCount (d2.children.take a2) +
          (listElCount ((d2.children.drop a2).take (b2 - a2)) +
           listElCount (d2.children.drop b2)) := by
      conv_lhs => rw [take_slice_drop d2.children a2 b2 hab]
      rw [listElCount_append, listElCount_append]
    rw [hc2, hc] at hdec
    omega
  simp only [mkSelection]
  refine ⟨?_, ?_, ?_⟩
  · rw [e1]
    rfl
  · rw [e1]
    dsimp only
    rw [e3]
    rfl
  · rw [e1]
    dsimp only
    rw [e3]
    dsimp only
    rw [listElCount_append]
    simp only [listElCount, nodeElCount]
    omega

/-- C5 witness: highlighting the word world twice. -/
theorem highlight_twice_single_wrapper_witness :
    isHighlighted
        (highlight ⟨[DNode.txt 0 "hello world".toList], 1⟩
          (mkSelection ⟨NRef.ptext 0, 6, NRef.ptext 0, 11⟩) "span"
          yellowDecorator).2.1 = true ∧
    isHighlighted
        (highlight
          (highlight ⟨[DNode.txt 0 "hello world".toList], 1⟩
            (mkSelection ⟨NRef.ptext 0, 6, NRef.ptext 0, 11⟩) "span"
            yellowDecorator).1
          (highlight ⟨[DNode.txt 0 "hello world".toList], 1⟩
            (mkSelection ⟨NRef.ptext 0, 6, NRef.ptext 0, 11⟩) "span"
            yellowDecorator).2.1 "span" yellowDecorator).2.1 = true ∧
    listElCount
        (highlight
          (highlight ⟨[DNode.txt 0 "hello world".toList], 1⟩
            (mkSelection ⟨NRef.ptext 0, 6, NRef.ptext 0, 11⟩) "span"
            yellowDecorator).1
          (highlight ⟨[DNode.txt 0 "hello world".toList], 1⟩
            (mkSelection ⟨NRef.ptext 0, 6, NRef.ptext 0, 11⟩) "span"
            yellowDecorator).2.1 "span" yellowDecorator).1.children = 1 :=
  highlight_twice_single_wrapper _ _ "span" "span" yellowDecorator
    yellowDecorator rfl (by decide) (by decide) (by decide)

/-- C10: within highlight on a same-container range of a fresh Selection,
the stored highlighter is the decorator applied to the newly created element
(whose identity is not yet in the document, so the decorator runs on a
detached element, before the surround insertion); and if the surround step
fails, the Selection still reports isHighlighted true although the document
is unchanged - no wrapper was inserted. -/
theorem highlight_decorator_detached (doc : Doc) (s : Selection)
    (tag : String) (dec : String → String)
    (hfresh : s.highlighter = none) (hsame : s.range.startC = s.range.endC)
    (hid : elemIdsBelow doc = true) :
    ((highlight doc s tag dec).2.1.highlighter =
        some ⟨doc.nextId, tag, dec ""⟩ ∧
      doc.nextId ∉ listElemIds doc.children) ∧
    (∀ d' s' e, highlight doc s tag dec = (d', s', some e) →
      isHighlighted s' = true ∧ d'.children = doc.children) := by
  have hnotin : doc.nextId ∉ listElemIds doc.children := fun hmem =>
    absurd (elemIdsBelow_spec doc hid _ hmem) (Nat.lt_irrefl _)
  constructor
  · refine ⟨?_, hnotin⟩
    simp only [highlight, isHighlighted, hfresh, Option.isSome_none,
      Bool.false_eq_true, if_false]
    rw [if_pos hsame]
    cases hs : surroundContents ⟨doc.children, doc.nextId + 1⟩ s.range
        ⟨doc.nextId, tag, dec ""⟩ with
    | ok val =>
      obtain ⟨d3, r3⟩ := val
      simp
    | error e0 => simp
  · intro d' s' e heq
    simp only [highlight, isHighlighted, hfresh, Option.isSome_none,
      Bool.false_eq_true, if_false] at heq
    rw [if_pos hsame] at heq
    cases hs : surroundContents ⟨doc.children, doc.nextId + 1⟩ s.range
        ⟨doc.nextId, tag, dec ""⟩ with
    | ok val =>
      obtain ⟨d3, r3⟩ := val
      rw [hs] at heq
      simp at heq
    | error e0 =>
      rw [hs] at heq
      simp only [Prod.mk.injEq] at heq
      obtain ⟨hd, hsx, _⟩ := heq
      constructor
      · rw [← hsx]
        simp [isHighlighted]
      · rw [← hd]

/-- C10 witness: an out of range end offset makes the surround step fail
after the highlighter was stored. -/
theorem highlight_decorator_detached_witness :
    isHighlighted
        (highlight ⟨[DNode.txt 0 "abc".toList], 1⟩
          (mkSelection ⟨NRef.ptext 0, 1, NRef.ptext 0, 99⟩) "span"
          yellowDecorator).2.1 = true ∧
    (highlight ⟨[DNode.txt 0 "abc".toList], 1⟩
        (mkSelection ⟨NRef.ptext 0, 1, NRef.ptext 0, 99⟩) "span"
        yellowDecorator).1.children = [DNode.txt 0 "abc".toList] ∧
    (highlight ⟨[DNode.txt 0 "abc".toList], 1⟩
        (mkSelection ⟨NRef.ptext 0, 1, NRef.ptext 0, 99⟩) "span"
        yellowDecorator).2.1.highlighter = some ⟨1, "span", "yellow"⟩ := by
  have h := highlight_decorator_detached ⟨[DNode.txt 0 "abc".toList], 1⟩
    (mkSelection ⟨NRef.ptext 0, 1, NRef.ptext 0, 99⟩) "span" yellowDecorator
    rfl rfl (by decide)
  have heq : highlight ⟨[DNode.txt 0 "abc".toList], 1⟩
      (mkSelection ⟨NRef.ptext 0, 1, NRef.ptext 0, 99⟩) "span"
      yellowDecorator =
      (⟨[DNode.txt 0 "abc".toList], 2⟩,
       ⟨⟨NRef.ptext 0, 1, NRef.ptext 0, 99⟩, some ⟨1, "span", "yellow"⟩⟩,
       some DomErr.indexSize) := by decide
  have h2 := h.2 _ _ _ heq
  refine ⟨?_, h2.2, h.1.1⟩
  rw [heq]
  exact h2.1

/-! ### Claim theorems about process -/

/-- C1: on a host selection with a first range, process builds a Selection
around that range, applies snapToWord exactly when the option is set,
applies highlight with a span tag and the yellow background decorator
exactly when that option is set (its outcome, including a thrown error,
being what process returns), and returns the resulting Selection. -/
theorem process_composes (doc : Doc) (r : Rng) (rest : List Rng) :
    (process ⟨false, false⟩ doc (r :: rest) =
      (doc, Except.ok (mkSelection r))) ∧
    (process ⟨true, false⟩ doc (r :: rest) =
      (doc, Except.ok (snapToWord doc (mkSelection r)))) ∧
    (∀ sb : Bool,
      match highlight doc
          (if sb then snapToWord doc (mkSelection r) else mkSelection r)
          "span" yellowDecorator with
      | (d, s, none) => process ⟨sb, true⟩ doc (r :: rest) = (d, Except.ok s)
      | (d, _, some e) =>
          process ⟨sb, true⟩ doc (r :: rest) = (d, Except.error e)) ∧
    (∀ bg : String, yellowDecorator bg = "yellow") := by
  refine ⟨rfl, rfl, ?_, fun _ => rfl⟩
  intro sb
  cases hh : highlight doc
      (if sb then snapToWord doc (mkSelection r) else mkSelection r)
      "span" yellowDecorator with
  | mk d rest2 =>
    obtain ⟨s, err⟩ := rest2
    cases err with
    | none =>
      simp only [process]
      rw [hh]
      simp
    | some e =>
      simp only [process]
      rw [hh]
      simp

/-- C8: when the host selection reports zero ranges, process propagates the
failure of obtaining the first range: no Selection is returned and the
document is untouched. -/
theorem process_no_selection_propagates (options : Options) (doc : Doc) :
    process options doc [] = (doc, Except.error DomErr.indexSize) := rfl

end OnSelect
